import Mathlib

/-!
Shallow embedding of `src/greedy_fast.py` (`greedy_max_k_cover_fast`).

Modelling conventions:
* A tabular input is a list of rows plus flags recording which optional
  columns are present (pandas column membership tests).
* A cell that `pd.to_numeric(errors=coerce)` fails to parse becomes `none`
  (the NaN it is coerced to); a parsed number is `some q` with `q : ℚ`.
  Exact rationals stand in for the floating-point values: every input the
  claims evaluate is small and exactly representable.
* `cKDTree.query_ball_point(pt, r)` is the closed ball test: a point is
  returned iff its Euclidean distance to `pt` is ≤ r.  A NaN coordinate
  compares false in IEEE arithmetic, so a row with an unparsed coordinate
  is never inside any ball; `inBall` reproduces that.
* Raising `ValueError` is modelled by `Except.error` carrying the message
  text (quotes around the column name dropped).
-/

/-- A candidate row: column `id` plus parsed `x`, `y` cells. -/
structure CandRow where
  id : Int
  x : Option ℚ
  y : Option ℚ
deriving DecidableEq

/-- A demand (population) row: `id`, parsed `x`, `y`, and the parsed `pop`
cell (meaningful only when the table has a `pop` column). -/
structure PopRow where
  id : Int
  x : Option ℚ
  y : Option ℚ
  pop : Option ℚ
deriving DecidableEq

/-- The candidates table: which of the required coordinate columns exist,
and the rows. -/
structure CandTable where
  hasX : Bool
  hasY : Bool
  rows : List CandRow

/-- The population (demand) table: coordinate columns, the optional `pop`
column, and the rows. -/
structure PopTable where
  hasX : Bool
  hasY : Bool
  hasPop : Bool
  rows : List PopRow

/-- `population[pop] = 1.0` when the column is absent, else
`pd.to_numeric(population[pop], errors=coerce).fillna(0.0)`. -/
def popWeights (p : PopTable) : List ℚ :=
  if p.hasPop then p.rows.map (fun r => r.pop.getD 0) else p.rows.map (fun _ => 1)

/-- Candidate coordinate pairs (`cand_coords`). -/
def candCoords (c : CandTable) : List (Option ℚ × Option ℚ) :=
  c.rows.map (fun r => (r.x, r.y))

/-- Demand coordinate pairs (`pop_coords`). -/
def popCoords (p : PopTable) : List (Option ℚ × Option ℚ) :=
  p.rows.map (fun r => (r.x, r.y))

/-- Closed-ball membership test of `query_ball_point`: both points must have
parsed coordinates (NaN comparisons are false) and the squared Euclidean
distance must be ≤ r², with r ≥ 0 (a negative radius holds no point). -/
def inBall (c : Option ℚ × Option ℚ) (p : Option ℚ × Option ℚ) (r : ℚ) : Bool :=
  match c.1, c.2, p.1, p.2 with
  | some cx, some cy, some px, some py =>
      decide (0 ≤ r ∧ (cx - px) ^ 2 + (cy - py) ^ 2 ≤ r ^ 2)
  | _, _, _, _ => false

/-- Indices of the demand points inside the closed ball of radius `r`
around one candidate (`tree.query_ball_point(pt, r=radius)`). -/
def coverageList (pts : List (Option ℚ × Option ℚ)) (c : Option ℚ × Option ℚ)
    (r : ℚ) : List Nat :=
  (List.range pts.length).filter (fun i => inBall c (pts.getD i (none, none)) r)

/-- One coverage list per candidate (`coverage_lists`). -/
def coverageLists (c : CandTable) (p : PopTable) (r : ℚ) : List (List Nat) :=
  (candCoords c).map (fun pt => coverageList (popCoords p) pt r)

/-- Marginal gain of a coverage list: `pop_weights[cov[~covered[cov]]].sum()`,
the weight of its not-yet-covered indices. -/
def gainOf (covList : List Nat) (w : List ℚ) (covered : List Bool) : ℚ :=
  (((covList.filter (fun i => !(covered.getD i false)))).map (fun i => w.getD i 0)).sum

/-- The candidate scan of one greedy iteration: walk the coverage lists in
index order carrying `best_ci` / `best_gain` (`best_ci = -1` is `none`,
`best_gain` starts at `0.0`) and update on `gain > best_gain`.  The source's
two `continue`s for an empty coverage list and an empty uncovered slice are
no-ops here: in both cases the gain is `0`, which never exceeds `best_gain`. -/
def scanGo (w : List ℚ) (covered : List Bool) (selected : List Nat) :
    Nat → List (List Nat) → Option Nat → ℚ → Option Nat
  | _, [], best, _ => best
  | ci, c :: rest, best, bestGain =>
    if ci ∈ selected then scanGo w covered selected (ci + 1) rest best bestGain
    else if bestGain < gainOf c w covered then
      scanGo w covered selected (ci + 1) rest (some ci) (gainOf c w covered)
    else scanGo w covered selected (ci + 1) rest best bestGain

/-- The winner of one greedy iteration, if any. -/
def bestCandidate (cov : List (List Nat)) (w : List ℚ) (covered : List Bool)
    (selected : List Nat) : Option Nat :=
  scanGo w covered selected 0 cov none 0

/-- `covered[coverage_lists[best_ci]] = True`: set every listed index. -/
def markCovered (covered : List Bool) (idxs : List Nat) : List Bool :=
  idxs.foldl (fun m i => m.set i true) covered

/-- The greedy loop `for _ in range(min(k, n_cand))`: stop when the fuel is
out or no candidate has positive gain (`best_ci == -1`), else record the
winner and mark its whole coverage list covered. -/
def greedyLoop (cov : List (List Nat)) (w : List ℚ) :
    Nat → List Bool → List Nat → List Nat × List Bool
  | 0, covered, selected => (selected, covered)
  | fuel + 1, covered, selected =>
    match bestCandidate cov w covered selected with
    | none => (selected, covered)
    | some ci =>
        greedyLoop cov w fuel (markCovered covered (cov.getD ci [])) (selected ++ [ci])

/-- `pop_weights[covered].sum()`: total weight at the true mask positions. -/
def coveredWeight : List ℚ → List Bool → ℚ
  | [], _ => 0
  | _ :: _, [] => 0
  | x :: xs, c :: cs => (if c then x else 0) + coveredWeight xs cs

/-- The returned triple `(selected_ids, total_covered_pop, covered_mask)`. -/
structure KResult where
  selected_ids : List Int
  total : ℚ
  covered : List Bool
deriving DecidableEq

/-- Default row used only to give `List.getD` a junk value; the greedy loop
only ever selects valid indices. -/
def defaultCandRow : CandRow := ⟨0, none, none⟩

/-- `greedy_max_k_cover_fast(candidates, population, k, radius)`.
Column checks (`for col in (x, y): ...`) raise first, the empty-input /
`k ≤ 0` early return gives the empty result, then the KDTree coverage
lists feed the greedy loop. -/
def greedy_max_k_cover_fast (cands : CandTable) (pop : PopTable) (k : Int)
    (r : ℚ) : Except String KResult :=
  if cands.hasX = false ∨ pop.hasX = false then
    .error "Both candidates and population must contain column x"
  else if cands.hasY = false ∨ pop.hasY = false then
    .error "Both candidates and population must contain column y"
  else
    let nc := cands.rows.length
    let np := pop.rows.length
    if nc = 0 ∨ np = 0 ∨ k ≤ 0 then
      .ok ⟨[], 0, List.replicate np false⟩
    else
      let w := popWeights pop
      let cov := coverageLists cands pop r
      let res := greedyLoop cov w (min k.toNat nc) (List.replicate np false) []
      .ok ⟨res.1.map (fun i => (cands.rows.getD i defaultCandRow).id),
           coveredWeight w res.2, res.2⟩

/-- Total covered weight of a solve outcome (`0` on the raising path). -/
def totalOf : Except String KResult → ℚ
  | .ok v => v.total
  | .error _ => 0

/-- Selected ids of a solve outcome (`[]` on the raising path). -/
def selOf : Except String KResult → List Int
  | .ok v => v.selected_ids
  | .error _ => []

/-- Covered mask of a solve outcome (`[]` on the raising path). -/
def maskOf : Except String KResult → List Bool
  | .ok v => v.covered
  | .error _ => []

instance {α β : Type} [DecidableEq α] [DecidableEq β] : DecidableEq (Except α β) :=
  fun a b =>
    match a, b with
    | .ok x, .ok y => decidable_of_iff (x = y) (by simp)
    | .error s, .error t => decidable_of_iff (s = t) (by simp)
    | .ok _, .error _ => isFalse (by simp)
    | .error _, .ok _ => isFalse (by simp)

/-- The spec's concrete scenario: two candidates on the x-axis. -/
def scenCands : CandTable :=
  ⟨true, true, [⟨0, some 0, some 0⟩, ⟨1, some 10, some 0⟩]⟩

/-- The spec's concrete scenario: three weighted demand points. -/
def scenPop : PopTable :=
  ⟨true, true, true,
   [⟨0, some 0, some 0, some 5⟩, ⟨1, some 1, some 0, some 3⟩,
    ⟨2, some 10, some 0, some 10⟩]⟩

/-! ### Helper lemmas on masks and weights -/

theorem getD_set_self (l : List Bool) (a : Nat) (h : a < l.length) :
    (l.set a true).getD a false = true := by
  induction l generalizing a with
  | nil => simp at h
  | cons x xs ih =>
    cases a with
    | zero => simp
    | succ n => simpa using ih n (by simpa using h)

theorem getD_set_ne {α : Type} (l : List α) (d b : α) (i a : Nat) (h : i ≠ a) :
    (l.set a b).getD i d = l.getD i d := by
  induction l generalizing i a with
  | nil => simp
  | cons x xs ih =>
    cases a with
    | zero =>
      cases i with
      | zero => exact absurd rfl h
      | succ j => simp
    | succ n =>
      cases i with
      | zero => simp
      | succ j => simpa using ih j n (fun e => h (by omega))

theorem markCovered_nil (covered : List Bool) : markCovered covered [] = covered := rfl

theorem markCovered_cons (covered : List Bool) (a : Nat) (rest : List Nat) :
    markCovered covered (a :: rest) = markCovered (covered.set a true) rest := rfl

theorem length_markCovered (idxs : List Nat) (covered : List Bool) :
    (markCovered covered idxs).length = covered.length := by
  induction idxs generalizing covered with
  | nil => rfl
  | cons a rest ih => rw [markCovered_cons, ih, List.length_set]

theorem markCovered_getD (idxs : List Nat) (covered : List Bool) (i : Nat)
    (hb : ∀ j ∈ idxs, j < covered.length) :
    (markCovered covered idxs).getD i false
      = (covered.getD i false || decide (i ∈ idxs)) := by
  induction idxs generalizing covered with
  | nil => simp [markCovered]
  | cons a rest ih =>
    rw [markCovered_cons, ih (covered.set a true)
      (fun j hj => by rw [List.length_set]; exact hb j (List.mem_cons_of_mem a hj))]
    by_cases hia : i = a
    · subst hia
      rw [getD_set_self covered i (hb i (List.mem_cons_self i rest))]
      simp
    · rw [getD_set_ne covered false true i a hia]
      simp [List.mem_cons, hia]

theorem coveredWeight_set (w : List ℚ) (covered : List Bool) (a : Nat)
    (h : a < covered.length) :
    coveredWeight w (covered.set a true)
      = coveredWeight w covered + (if covered.getD a false then 0 else w.getD a 0) := by
  induction covered generalizing w a with
  | nil => simp at h
  | cons c cs ih =>
    cases w with
    | nil =>
      cases a with
      | zero => simp [coveredWeight]
      | succ n => simp [coveredWeight]
    | cons x xs =>
      cases a with
      | zero =>
        cases c <;> simp [coveredWeight] <;> ring
      | succ n =>
        have hn : n < cs.length := by simpa using h
        simp only [List.set, coveredWeight, List.getD_cons_succ, ih xs n hn]
        ring

theorem gainOf_nil (w : List ℚ) (covered : List Bool) : gainOf [] w covered = 0 := rfl

theorem gainOf_cons (a : Nat) (rest : List Nat) (w : List ℚ) (covered : List Bool) :
    gainOf (a :: rest) w covered
      = (if covered.getD a false then 0 else w.getD a 0) + gainOf rest w covered := by
  unfold gainOf
  rw [List.filter_cons]
  by_cases h : covered.getD a false
  · have hc : (!(covered.getD a false)) = false := by rw [h]; rfl
    rw [hc, if_pos h]
    simp
  · have hb : covered.getD a false = false := by simpa using h
    have hc : (!(covered.getD a false)) = true := by rw [hb]; rfl
    rw [hc, if_neg h]
    simp

theorem gainOf_congr (idxs : List Nat) (w : List ℚ) (c1 c2 : List Bool)
    (h : ∀ i ∈ idxs, c1.getD i false = c2.getD i false) :
    gainOf idxs w c1 = gainOf idxs w c2 := by
  unfold gainOf
  rw [List.filter_congr (fun i hi => by rw [h i hi])]

theorem coveredWeight_markCovered (w : List ℚ) (covered : List Bool) (idxs : List Nat)
    (hnd : idxs.Nodup) (hb : ∀ j ∈ idxs, j < covered.length) :
    coveredWeight w (markCovered covered idxs)
      = coveredWeight w covered + gainOf idxs w covered := by
  induction idxs generalizing covered with
  | nil => simp [markCovered, gainOf_nil]
  | cons a rest ih =>
    have hna : a ∉ rest := by
      simpa using (List.nodup_cons.mp hnd).1
    have hrest : rest.Nodup := (List.nodup_cons.mp hnd).2
    have hb' : ∀ j ∈ rest, j < (covered.set a true).length := by
      intro j hj; rw [List.length_set]; exact hb j (List.mem_cons_of_mem a hj)
    rw [markCovered_cons, ih (covered.set a true) hrest hb',
      coveredWeight_set w covered a (hb a (List.mem_cons_self a rest)),
      gainOf_cons,
      gainOf_congr rest w (covered.set a true) covered
        (fun i hi => getD_set_ne covered false true i a (fun e => hna (e ▸ hi)))]
    ring

theorem coveredWeight_replicate (w : List ℚ) (n : Nat) :
    coveredWeight w (List.replicate n false) = 0 := by
  induction w generalizing n with
  | nil => rfl
  | cons x xs ih =>
    cases n with
    | zero => rfl
    | succ m => simpa [List.replicate, coveredWeight] using ih m

/-! ### Specification of the candidate scan -/

theorem scanGo_spec (w : List ℚ) (covered : List Bool) (selected : List Nat)
    (G : Nat → ℚ) (cs : List (List Nat)) :
    ∀ (ci : Nat) (best : Option Nat) (bestGain : ℚ),
    (∀ p, p < cs.length → gainOf (cs.getD p []) w covered = G (ci + p)) →
    ((best = none ∧ bestGain = 0) ∨
      (∃ b, best = some b ∧ b < ci ∧ b ∉ selected ∧ bestGain = G b ∧ 0 < bestGain ∧
        ∀ j, j < b → j ∉ selected → G j < bestGain)) →
    (∀ j, j < ci → j ∉ selected → G j ≤ bestGain) →
    0 ≤ bestGain →
    (∀ r, scanGo w covered selected ci cs best bestGain = some r →
      r < ci + cs.length ∧ r ∉ selected ∧ 0 < G r ∧
      (∀ j, j < ci + cs.length → j ∉ selected → G j ≤ G r) ∧
      (∀ j, j < r → j ∉ selected → G j < G r)) ∧
    (scanGo w covered selected ci cs best bestGain = none →
      ∀ j, j < ci + cs.length → j ∉ selected → G j ≤ 0) := by
  induction cs with
  | nil =>
    intro ci best bestGain _ hbest hub hnn
    constructor
    · intro r hr
      rcases hbest with ⟨hn, _⟩ | ⟨b, hs, hlt, hns, hgain, hpos, hstrict⟩
      · rw [scanGo] at hr
        rw [hn] at hr
        exact absurd hr (by simp)
      · rw [scanGo] at hr
        rw [hs] at hr
        obtain rfl : b = r := by simpa using hr
        subst hgain
        refine ⟨by simp; omega, hns, hpos, ?_, hstrict⟩
        intro j hj hjs
        have hj' : j < ci := by simpa using hj
        exact hub j hj' hjs
    · intro hr j hj hjs
      rcases hbest with ⟨hn, hg⟩ | ⟨b, hs, _⟩
      · subst hg
        have hj' : j < ci := by simpa using hj
        exact hub j hj' hjs
      · rw [scanGo, hs] at hr
        exact absurd hr (by simp)
  | cons c rest ih =>
    intro ci best bestGain hcs hbest hub hnn
    have hc0 : gainOf c w covered = G ci := by
      have := hcs 0 (by simp)
      simpa using this
    have hcs' : ∀ p, p < rest.length →
        gainOf (rest.getD p []) w covered = G (ci + 1 + p) := by
      intro p hp
      have := hcs (p + 1) (by simpa using Nat.succ_lt_succ hp)
      have harith : ci + (p + 1) = ci + 1 + p := by omega
      simpa [harith] using this
    by_cases hsel : ci ∈ selected
    · have heq : scanGo w covered selected ci (c :: rest) best bestGain
          = scanGo w covered selected (ci + 1) rest best bestGain := by
        rw [scanGo, if_pos hsel]
      have hub' : ∀ j, j < ci + 1 → j ∉ selected → G j ≤ bestGain := by
        intro j hj hjs
        rcases Nat.lt_or_ge j ci with h | h
        · exact hub j h hjs
        · obtain rfl : j = ci := by omega
          exact absurd hsel hjs
      have hbest' : (best = none ∧ bestGain = 0) ∨
          (∃ b, best = some b ∧ b < ci + 1 ∧ b ∉ selected ∧ bestGain = G b ∧
            0 < bestGain ∧ ∀ j, j < b → j ∉ selected → G j < bestGain) := by
        rcases hbest with h | ⟨b, h1, h2, h3, h4, h5, h6⟩
        · exact Or.inl h
        · exact Or.inr ⟨b, h1, by omega, h3, h4, h5, h6⟩
      have := ih (ci + 1) best bestGain hcs' hbest' hub' hnn
      rw [heq]
      have harith : ci + 1 + rest.length = ci + (c :: rest).length := by
        simp; omega
      rw [harith] at this
      exact this
    · by_cases hgt : bestGain < gainOf c w covered
      · have heq : scanGo w covered selected ci (c :: rest) best bestGain
            = scanGo w covered selected (ci + 1) rest (some ci) (gainOf c w covered) := by
          rw [scanGo, if_neg hsel, if_pos hgt]
        have hpos : 0 < gainOf c w covered := lt_of_le_of_lt hnn hgt
        have hbest' : ((some ci : Option Nat) = none ∧ gainOf c w covered = 0) ∨
            (∃ b, (some ci : Option Nat) = some b ∧ b < ci + 1 ∧ b ∉ selected ∧
              gainOf c w covered = G b ∧ 0 < gainOf c w covered ∧
              ∀ j, j < b → j ∉ selected → G j < gainOf c w covered) := by
          refine Or.inr ⟨ci, rfl, by omega, hsel, hc0, hpos, ?_⟩
          intro j hj hjs
          exact lt_of_le_of_lt (hub j hj hjs) hgt
        have hub' : ∀ j, j < ci + 1 → j ∉ selected → G j ≤ gainOf c w covered := by
          intro j hj hjs
          rcases Nat.lt_or_ge j ci with h | h
          · exact le_of_lt (lt_of_le_of_lt (hub j h hjs) hgt)
          · obtain rfl : j = ci := by omega
            exact le_of_eq hc0.symm
        have := ih (ci + 1) (some ci) (gainOf c w covered) hcs' hbest' hub'
          (le_of_lt hpos)
        rw [heq]
        have harith : ci + 1 + rest.length = ci + (c :: rest).length := by
          simp; omega
        rw [harith] at this
        exact this
      · have heq : scanGo w covered selected ci (c :: rest) best bestGain
            = scanGo w covered selected (ci + 1) rest best bestGain := by
          rw [scanGo, if_neg hsel, if_neg hgt]
        have hub' : ∀ j, j < ci + 1 → j ∉ selected → G j ≤ bestGain := by
          intro j hj hjs
          rcases Nat.lt_or_ge j ci with h | h
          · exact hub j h hjs
          · obtain rfl : j = ci := by omega
            rw [← hc0]
            exact le_of_not_lt hgt
        have hbest' : (best = none ∧ bestGain = 0) ∨
            (∃ b, best = some b ∧ b < ci + 1 ∧ b ∉ selected ∧ bestGain = G b ∧
              0 < bestGain ∧ ∀ j, j < b → j ∉ selected → G j < bestGain) := by
          rcases hbest with h | ⟨b, h1, h2, h3, h4, h5, h6⟩
          · exact Or.inl h
          · exact Or.inr ⟨b, h1, by omega, h3, h4, h5, h6⟩
        have := ih (ci + 1) best bestGain hcs' hbest' hub' hnn
        rw [heq]
        have harith : ci + 1 + rest.length = ci + (c :: rest).length := by
          simp; omega
        rw [harith] at this
        exact this

/-- The gains scanned by `bestCandidate`, as a total function of the index
(out-of-range candidates have the empty coverage list, hence gain `0`). -/
def gainAt (cov : List (List Nat)) (w : List ℚ) (covered : List Bool) (j : Nat) : ℚ :=
  gainOf (cov.getD j []) w covered

theorem gainAt_of_ge (cov : List (List Nat)) (w : List ℚ) (covered : List Bool)
    (j : Nat) (h : cov.length ≤ j) : gainAt cov w covered j = 0 := by
  unfold gainAt
  rw [List.getD_eq_default cov [] h]
  rfl

theorem bestCandidate_some (cov : List (List Nat)) (w : List ℚ)
    (covered : List Bool) (selected : List Nat) (ci : Nat)
    (h : bestCandidate cov w covered selected = some ci) :
    ci < cov.length ∧ ci ∉ selected ∧ 0 < gainAt cov w covered ci ∧
      (∀ j, j ∉ selected → gainAt cov w covered j ≤ gainAt cov w covered ci) ∧
      (∀ j, j < ci → j ∉ selected → gainAt cov w covered j < gainAt cov w covered ci) := by
  have hspec := scanGo_spec w covered selected (gainAt cov w covered) cov 0 none 0
    (fun p _ => by simp [gainAt]) (Or.inl ⟨rfl, rfl⟩)
    (fun j hj _ => absurd hj (by omega)) le_rfl
  have hmain := hspec.1 ci h
  obtain ⟨hlt, hns, hpos, hub, hstrict⟩ := hmain
  refine ⟨by simpa using hlt, hns, hpos, ?_, hstrict⟩
  intro j hjs
  rcases Nat.lt_or_ge j cov.length with hj | hj
  · exact hub j (by simpa using hj) hjs
  · rw [gainAt_of_ge cov w covered j hj]
    exact le_of_lt hpos

theorem bestCandidate_none (cov : List (List Nat)) (w : List ℚ)
    (covered : List Bool) (selected : List Nat)
    (h : bestCandidate cov w covered selected = none) :
    ∀ j, j ∉ selected → gainAt cov w covered j ≤ 0 := by
  have hspec := scanGo_spec w covered selected (gainAt cov w covered) cov 0 none 0
    (fun p _ => by simp [gainAt]) (Or.inl ⟨rfl, rfl⟩)
    (fun j hj _ => absurd hj (by omega)) le_rfl
  intro j hjs
  rcases Nat.lt_or_ge j cov.length with hj | hj
  · exact hspec.2 h j (by simpa using hj) hjs
  · rw [gainAt_of_ge cov w covered j hj]

/-! ### The greedy loop -/

theorem greedyLoop_zero (cov : List (List Nat)) (w : List ℚ) (covered : List Bool)
    (selected : List Nat) : greedyLoop cov w 0 covered selected = (selected, covered) := rfl

theorem greedyLoop_none (cov : List (List Nat)) (w : List ℚ) (covered : List Bool)
    (selected : List Nat) (fuel : Nat)
    (h : bestCandidate cov w covered selected = none) :
    greedyLoop cov w fuel covered selected = (selected, covered) := by
  cases fuel with
  | zero => rfl
  | succ f => rw [greedyLoop, h]

theorem greedyLoop_step (cov : List (List Nat)) (w : List ℚ) (covered : List Bool)
    (selected : List Nat) (fuel : Nat) (ci : Nat)
    (h : bestCandidate cov w covered selected = some ci) :
    greedyLoop cov w (fuel + 1) covered selected
      = greedyLoop cov w fuel (markCovered covered (cov.getD ci [])) (selected ++ [ci]) := by
  rw [greedyLoop, h]

theorem greedyLoop_add (cov : List (List Nat)) (w : List ℚ) (a b : Nat) :
    ∀ (covered : List Bool) (selected : List Nat),
    greedyLoop cov w (a + b) covered selected
      = greedyLoop cov w b (greedyLoop cov w a covered selected).2
          (greedyLoop cov w a covered selected).1 := by
  induction a with
  | zero =>
    intro covered selected
    simp [greedyLoop_zero]
  | succ n ih =>
    intro covered selected
    rcases hbc : bestCandidate cov w covered selected with _ | ci
    · rw [greedyLoop_none cov w covered selected (n + 1 + b) hbc,
        greedyLoop_none cov w covered selected (n + 1) hbc]
      exact (greedyLoop_none cov w covered selected b hbc).symm
    · have harith : n + 1 + b = (n + b) + 1 := by omega
      rw [harith, greedyLoop_step cov w covered selected (n + b) ci hbc,
        greedyLoop_step cov w covered selected n ci hbc, ih]

/-- Well-formedness of a family of coverage lists over `n` demand points:
each list is duplicate-free and holds valid demand indices. -/
def covOk (cov : List (List Nat)) (n : Nat) : Prop :=
  ∀ l ∈ cov, l.Nodup ∧ ∀ i ∈ l, i < n

theorem covOk_getD (cov : List (List Nat)) (n : Nat) (h : covOk cov n) (ci : Nat) :
    (cov.getD ci []).Nodup ∧ ∀ i ∈ cov.getD ci [], i < n := by
  rcases Nat.lt_or_ge ci cov.length with hci | hci
  · rw [List.getD_eq_getElem cov [] hci]
    exact h _ (List.getElem_mem hci)
  · rw [List.getD_eq_default cov [] hci]
    exact ⟨List.nodup_nil, by simp⟩

theorem coverageLists_covOk (c : CandTable) (p : PopTable) (r : ℚ) :
    covOk (coverageLists c p r) p.rows.length := by
  intro l hl
  rw [coverageLists] at hl
  obtain ⟨pt, _, rfl⟩ := List.mem_map.mp hl
  constructor
  · exact List.Nodup.filter _ (List.nodup_range _)
  · intro i hi
    have : i ∈ List.range (popCoords p).length := List.mem_of_mem_filter hi
    rw [List.mem_range] at this
    simpa [popCoords] using this

theorem greedyLoop_mask_length (cov : List (List Nat)) (w : List ℚ) (fuel : Nat) :
    ∀ (covered : List Bool) (selected : List Nat),
    (greedyLoop cov w fuel covered selected).2.length = covered.length := by
  induction fuel with
  | zero => intro covered selected; rfl
  | succ n ih =>
    intro covered selected
    rcases hbc : bestCandidate cov w covered selected with _ | ci
    · rw [greedyLoop_none cov w covered selected (n + 1) hbc]
    · rw [greedyLoop_step cov w covered selected n ci hbc, ih, length_markCovered]

theorem greedyLoop_weight_mono (cov : List (List Nat)) (w : List ℚ) (fuel : Nat) :
    ∀ (covered : List Bool) (selected : List Nat), covOk cov covered.length →
    coveredWeight w covered ≤ coveredWeight w (greedyLoop cov w fuel covered selected).2 := by
  induction fuel with
  | zero => intro covered selected _; exact le_rfl
  | succ n ih =>
    intro covered selected hok
    rcases hbc : bestCandidate cov w covered selected with _ | ci
    · rw [greedyLoop_none cov w covered selected (n + 1) hbc]
    · rw [greedyLoop_step cov w covered selected n ci hbc]
      obtain ⟨hnd, hb⟩ := covOk_getD cov covered.length hok ci
      have hgain : 0 < gainOf (cov.getD ci []) w covered :=
        (bestCandidate_some cov w covered selected ci hbc).2.2.1
      have hstep : coveredWeight w covered
          ≤ coveredWeight w (markCovered covered (cov.getD ci [])) := by
        rw [coveredWeight_markCovered w covered (cov.getD ci []) hnd hb]
        linarith
      have hok' : covOk cov (markCovered covered (cov.getD ci [])).length := by
        rwa [length_markCovered]
      exact le_trans hstep (ih (markCovered covered (cov.getD ci [])) (selected ++ [ci]) hok')

theorem greedyLoop_sel_length (cov : List (List Nat)) (w : List ℚ) (fuel : Nat) :
    ∀ (covered : List Bool) (selected : List Nat),
    (greedyLoop cov w fuel covered selected).1.length ≤ selected.length + fuel := by
  induction fuel with
  | zero => intro covered selected; exact Nat.le_of_eq rfl
  | succ n ih =>
    intro covered selected
    rcases hbc : bestCandidate cov w covered selected with _ | ci
    · rw [greedyLoop_none cov w covered selected (n + 1) hbc]
      exact Nat.le_add_right _ _
    · rw [greedyLoop_step cov w covered selected n ci hbc]
      have := ih (markCovered covered (cov.getD ci [])) (selected ++ [ci])
      simpa [Nat.add_assoc, Nat.add_comm, Nat.add_left_comm] using this

theorem greedyLoop_invariant (cov : List (List Nat)) (w : List ℚ) (fuel : Nat) :
    ∀ (covered : List Bool) (selected : List Nat), covOk cov covered.length →
    selected.Nodup →
    (∀ i, covered.getD i false = true ↔ ∃ ci ∈ selected, i ∈ cov.getD ci []) →
    (greedyLoop cov w fuel covered selected).1.Nodup ∧
    (∀ i, (greedyLoop cov w fuel covered selected).2.getD i false = true ↔
      ∃ ci ∈ (greedyLoop cov w fuel covered selected).1, i ∈ cov.getD ci []) := by
  induction fuel with
  | zero => intro covered selected _ hnd hiff; exact ⟨hnd, hiff⟩
  | succ n ih =>
    intro covered selected hok hnd hiff
    rcases hbc : bestCandidate cov w covered selected with _ | ci
    · rw [greedyLoop_none cov w covered selected (n + 1) hbc]
      exact ⟨hnd, hiff⟩
    · rw [greedyLoop_step cov w covered selected n ci hbc]
      obtain ⟨hlnd, hb⟩ := covOk_getD cov covered.length hok ci
      have hci : ci ∉ selected :=
        (bestCandidate_some cov w covered selected ci hbc).2.1
      have hnd' : (selected ++ [ci]).Nodup := by
        simp [List.nodup_append, hnd, hci]
      have hiff' : ∀ i, (markCovered covered (cov.getD ci [])).getD i false = true ↔
          ∃ cj ∈ selected ++ [ci], i ∈ cov.getD cj [] := by
        intro i
        rw [markCovered_getD (cov.getD ci []) covered i hb]
        constructor
        · intro h
          rcases Bool.or_eq_true_iff.mp h with h | h
          · obtain ⟨cj, hcj, hicj⟩ := (hiff i).mp h
            exact ⟨cj, List.mem_append_left _ hcj, hicj⟩
          · exact ⟨ci, List.mem_append_right _ (List.mem_singleton.mpr rfl),
              of_decide_eq_true h⟩
        · intro ⟨cj, hcj, hicj⟩
          rcases List.mem_append.mp hcj with h | h
          · exact Bool.or_eq_true_iff.mpr (Or.inl ((hiff i).mpr ⟨cj, h, hicj⟩))
          · have : cj = ci := List.mem_singleton.mp h
            subst this
            exact Bool.or_eq_true_iff.mpr (Or.inr (decide_eq_true hicj))
      have hok' : covOk cov (markCovered covered (cov.getD ci [])).length := by
        rwa [length_markCovered]
      exact ih (markCovered covered (cov.getD ci [])) (selected ++ [ci]) hok' hnd' hiff'

theorem getD_replicate_false (n i : Nat) :
    (List.replicate n false).getD i false = false := by
  rcases Nat.lt_or_ge i n with h | h
  · rw [List.getD_eq_getElem _ _ (by simpa using h)]
    exact List.getElem_replicate false _
  · exact List.getD_eq_default _ _ (by simpa using h)

theorem coveredWeight_nonneg_le_sum (w : List ℚ) (m : List Bool)
    (hw : ∀ q ∈ w, 0 ≤ q) :
    0 ≤ coveredWeight w m ∧ coveredWeight w m ≤ w.sum := by
  induction w generalizing m with
  | nil => cases m <;> exact ⟨le_rfl, le_rfl⟩
  | cons x xs ih =>
    have hx : 0 ≤ x := hw x (List.mem_cons_self x xs)
    have hxs : ∀ q ∈ xs, 0 ≤ q := fun q hq => hw q (List.mem_cons_of_mem x hq)
    cases m with
    | nil =>
      have hsum : 0 ≤ (x :: xs).sum := by
        apply List.sum_nonneg
        intro q hq
        exact hw q hq
      exact ⟨le_rfl, hsum⟩
    | cons c cs =>
      obtain ⟨h1, h2⟩ := ih cs hxs
      constructor
      · have : (0:ℚ) ≤ (if c then x else 0) := by
          cases c <;> simp [hx]
        simpa [coveredWeight] using add_nonneg this h1
      · have : (if c then x else 0) ≤ x := by
          cases c <;> simp [hx]
        simp only [coveredWeight, List.sum_cons]
        linarith

theorem scanGo_none_of_no_gain (w : List ℚ) (covered : List Bool)
    (selected : List Nat) (cs : List (List Nat)) :
    ∀ ci, (∀ l ∈ cs, gainOf l w covered ≤ 0) →
    scanGo w covered selected ci cs none 0 = none := by
  induction cs with
  | nil => intro ci _; rfl
  | cons c rest ih =>
    intro ci h
    rw [scanGo]
    by_cases hsel : ci ∈ selected
    · rw [if_pos hsel]
      exact ih (ci + 1) (fun l hl => h l (List.mem_cons_of_mem c hl))
    · rw [if_neg hsel, if_neg (not_lt.mpr (h c (List.mem_cons_self c rest)))]
      exact ih (ci + 1) (fun l hl => h l (List.mem_cons_of_mem c hl))

theorem inBall_of_neg_radius (c p : Option ℚ × Option ℚ) (r : ℚ) (hr : r < 0) :
    inBall c p r = false := by
  obtain ⟨c1, c2⟩ := c
  obtain ⟨p1, p2⟩ := p
  cases c1 <;> cases c2 <;> cases p1 <;> cases p2 <;>
    simp [inBall, not_le.mpr hr]

theorem coverageList_of_neg_radius (pts : List (Option ℚ × Option ℚ))
    (c : Option ℚ × Option ℚ) (r : ℚ) (hr : r < 0) :
    coverageList pts c r = [] := by
  unfold coverageList
  apply List.filter_eq_nil_iff.mpr
  intro i _
  rw [inBall_of_neg_radius _ _ r hr]
  simp

/-! ### Claim theorems -/

/-- Claim C1: in every iteration of `greedy_max_k_cover_fast` that selects a
winner `ci`, the winner is not yet selected, its marginal gain (sum of the
weights of its still-uncovered coverage indices) is maximal among the
not-yet-selected candidates, every smaller-indexed not-yet-selected candidate
has strictly smaller gain (first-encountered wins ties), and the iteration
continues with every index of the winner's coverage list marked covered and
the winner appended to the selection (its id is taken from the selection list
at output time). -/
theorem greedy_step_selects_max_gain (cov : List (List Nat)) (w : List ℚ)
    (covered : List Bool) (selected : List Nat) (fuel : Nat) (ci : Nat)
    (h : bestCandidate cov w covered selected = some ci)
    (hb : ∀ i ∈ cov.getD ci [], i < covered.length) :
    ci ∉ selected ∧
    (∀ j, j ∉ selected → gainAt cov w covered j ≤ gainAt cov w covered ci) ∧
    (∀ j, j < ci → j ∉ selected → gainAt cov w covered j < gainAt cov w covered ci) ∧
    greedyLoop cov w (fuel + 1) covered selected
      = greedyLoop cov w fuel (markCovered covered (cov.getD ci [])) (selected ++ [ci]) ∧
    (∀ i ∈ cov.getD ci [], (markCovered covered (cov.getD ci [])).getD i false = true) := by
  obtain ⟨_, hns, _, hub, hstrict⟩ := bestCandidate_some cov w covered selected ci h
  refine ⟨hns, hub, hstrict, greedyLoop_step cov w covered selected fuel ci h, ?_⟩
  intro i hi
  rw [markCovered_getD (cov.getD ci []) covered i hb]
  exact Bool.or_eq_true_iff.mpr (Or.inr (decide_eq_true hi))

/-- Witness for C1: concrete one-candidate instance with a positive gain. -/
theorem greedy_step_selects_max_gain_witness :
    0 ∉ ([] : List Nat) ∧
    (∀ j, j ∉ ([] : List Nat) →
      gainAt [[0]] [5] [false] j ≤ gainAt [[0]] [5] [false] 0) ∧
    (∀ j, j < 0 → j ∉ ([] : List Nat) →
      gainAt [[0]] [5] [false] j < gainAt [[0]] [5] [false] 0) ∧
    greedyLoop [[0]] [5] (0 + 1) [false] []
      = greedyLoop [[0]] [5] 0 (markCovered [false] (([[0]] : List (List Nat)).getD 0 []))
          ([] ++ [0]) ∧
    (∀ i ∈ ([[0]] : List (List Nat)).getD 0 [],
      (markCovered [false] (([[0]] : List (List Nat)).getD 0 [])).getD i false = true) :=
  greedy_step_selects_max_gain [[0]] [5] [false] [] 0 0
    (by norm_num [bestCandidate, scanGo, gainOf]) (by decide)

/-- Claim C3: on the spec's concrete two-candidate, three-demand-point input
with radius 2, `k = 1` selects exactly candidate id 1 with total covered
weight 10, and `k = 2` covers all three demand points (mask all true) with
total covered weight 18. -/
theorem greedy_concrete_scenario :
    greedy_max_k_cover_fast scenCands scenPop 1 2
      = .ok ⟨[1], 10, [false, false, true]⟩ ∧
    greedy_max_k_cover_fast scenCands scenPop 2 2
      = .ok ⟨[1, 0], 18, [true, true, true]⟩ := by
  constructor <;>
    (norm_num [greedy_max_k_cover_fast, coverageLists, candCoords, popCoords,
      coverageList, inBall, popWeights, greedyLoop, bestCandidate, scanGo,
      gainOf, markCovered, coveredWeight, scenCands, scenPop, defaultCandRow,
      List.range_succ] <;> decide)

/-- Claim C5: a demand index `i` (whose row parsed to coordinates
`(px, py)`) belongs to the coverage list of a candidate with parsed
coordinates `(cx, cy)` exactly when `i` is in range and the Euclidean
distance between the two points is at most the radius (closed ball:
distance exactly `r` is included). -/
theorem coverage_iff_euclidean (pts : List (Option ℚ × Option ℚ))
    (cx cy px py r : ℚ) (i : Nat)
    (hpt : pts.getD i (none, none) = (some px, some py)) :
    i ∈ coverageList pts (some cx, some cy) r ↔
      i < pts.length ∧
        Real.sqrt (((cx : ℝ) - (px : ℝ)) ^ 2 + ((cy : ℝ) - (py : ℝ)) ^ 2) ≤ (r : ℝ) := by
  unfold coverageList
  rw [List.mem_filter, List.mem_range, hpt]
  simp only [inBall, decide_eq_true_eq]
  rw [Real.sqrt_le_iff]
  constructor
  · rintro ⟨h1, h2, h3⟩
    refine ⟨h1, by exact_mod_cast h2, ?_⟩
    push_cast
    exact_mod_cast h3
  · rintro ⟨h1, h2, h3⟩
    refine ⟨h1, by exact_mod_cast h2, ?_⟩
    have : ((cx - px) ^ 2 + (cy - py) ^ 2 : ℝ) ≤ ((r : ℝ)) ^ 2 := by
      push_cast at h3 ⊢
      exact h3
    exact_mod_cast this

/-- Witness for C5: the origin lies in the radius-1 ball around the origin. -/
theorem coverage_iff_euclidean_witness :
    0 ∈ coverageList [(some 0, some 0)] (some 0, some 0) 1 ↔
      0 < ([(some 0, some 0)] : List (Option ℚ × Option ℚ)).length ∧
        Real.sqrt ((((0 : ℚ) : ℝ) - ((0 : ℚ) : ℝ)) ^ 2
          + (((0 : ℚ) : ℝ) - ((0 : ℚ) : ℝ)) ^ 2) ≤ ((1 : ℚ) : ℝ) :=
  coverage_iff_euclidean [(some 0, some 0)] 0 0 0 0 1 0 rfl

/-- Claim C10: whenever both tables have their coordinate columns, the solve
returns the ids of a duplicate-free list of selected candidate indices, and
the returned mask is true at an index exactly when some selected candidate's
coverage list contains it. -/
theorem greedy_nodup_and_mask (cands : CandTable) (pop : PopTable) (k : Int)
    (r : ℚ) (hx : cands.hasX = true) (hy : cands.hasY = true)
    (px : pop.hasX = true) (py : pop.hasY = true) :
    ∃ (sel : List Nat) (covered : List Bool),
      greedy_max_k_cover_fast cands pop k r
        = .ok ⟨sel.map (fun i => (cands.rows.getD i defaultCandRow).id),
               coveredWeight (popWeights pop) covered, covered⟩ ∧
      sel.Nodup ∧
      (∀ i, covered.getD i false = true ↔
        ∃ ci ∈ sel, i ∈ (coverageLists cands pop r).getD ci []) := by
  rw [greedy_max_k_cover_fast]
  rw [hx, hy, px, py]
  simp only [Bool.true_eq_false, or_self, if_false]
  by_cases hempty : cands.rows.length = 0 ∨ pop.rows.length = 0 ∨ k ≤ 0
  · rw [if_pos hempty]
    refine ⟨[], List.replicate pop.rows.length false, ?_, List.nodup_nil, ?_⟩
    · simp [coveredWeight_replicate]
    · intro i
      simp [getD_replicate_false]
  · rw [if_neg hempty]
    have hlen : (List.replicate pop.rows.length false).length = pop.rows.length :=
      List.length_replicate _ _
    have hok : covOk (coverageLists cands pop r)
        (List.replicate pop.rows.length false).length := by
      rw [hlen]
      exact coverageLists_covOk cands pop r
    have hinv := greedyLoop_invariant (coverageLists cands pop r) (popWeights pop)
      (min k.toNat cands.rows.length) (List.replicate pop.rows.length false) []
      hok List.nodup_nil
      (by intro i; simp [getD_replicate_false])
    exact ⟨_, _, rfl, hinv.1, hinv.2⟩

/-- Witness for C10 on the spec's concrete scenario. -/
theorem greedy_nodup_and_mask_witness :
    ∃ (sel : List Nat) (covered : List Bool),
      greedy_max_k_cover_fast scenCands scenPop 2 2
        = .ok ⟨sel.map (fun i => (scenCands.rows.getD i defaultCandRow).id),
               coveredWeight (popWeights scenPop) covered, covered⟩ ∧
      sel.Nodup ∧
      (∀ i, covered.getD i false = true ↔
        ∃ ci ∈ sel, i ∈ (coverageLists scenCands scenPop 2).getD ci []) :=
  greedy_nodup_and_mask scenCands scenPop 2 2 rfl rfl rfl rfl

/-- Normal form of the solve when both coordinate columns are present. -/
theorem greedy_unfold (cands : CandTable) (pop : PopTable) (k : Int) (r : ℚ)
    (hx : cands.hasX = true) (hy : cands.hasY = true)
    (px : pop.hasX = true) (py : pop.hasY = true) :
    greedy_max_k_cover_fast cands pop k r
      = if cands.rows.length = 0 ∨ pop.rows.length = 0 ∨ k ≤ 0 then
          Except.ok ⟨[], 0, List.replicate pop.rows.length false⟩
        else
          Except.ok
            ⟨((greedyLoop (coverageLists cands pop r) (popWeights pop)
                (min k.toNat cands.rows.length)
                (List.replicate pop.rows.length false) []).1).map
                  (fun i => (cands.rows.getD i defaultCandRow).id),
              coveredWeight (popWeights pop)
                ((greedyLoop (coverageLists cands pop r) (popWeights pop)
                  (min k.toNat cands.rows.length)
                  (List.replicate pop.rows.length false) []).2),
              (greedyLoop (coverageLists cands pop r) (popWeights pop)
                (min k.toNat cands.rows.length)
                (List.replicate pop.rows.length false) []).2⟩ := by
  rw [greedy_max_k_cover_fast]
  rw [hx, hy, px, py]
  simp only [Bool.true_eq_false, or_self, if_false]

/-- Claim C6: with the coordinate columns present the solve never raises
(it always returns an `ok` result, possibly with an empty selection), the
selection has at most `min(k, number of candidates)` entries (so the loop
runs at most that many iterations), an over-large `k` is silently clamped
to the candidate count (same result), and the loop stops as soon as no
remaining candidate has positive marginal gain. -/
theorem greedy_never_raises_and_clamps (cands : CandTable) (pop : PopTable)
    (k : Int) (r : ℚ) (hx : cands.hasX = true) (hy : cands.hasY = true)
    (px : pop.hasX = true) (py : pop.hasY = true) :
    (∃ v, greedy_max_k_cover_fast cands pop k r = .ok v) ∧
    (selOf (greedy_max_k_cover_fast cands pop k r)).length
      ≤ min k.toNat cands.rows.length ∧
    greedy_max_k_cover_fast cands pop k r
      = greedy_max_k_cover_fast cands pop (min k (cands.rows.length : Int)) r ∧
    (∀ (fuel : Nat) (covered : List Bool) (selected : List Nat),
      bestCandidate (coverageLists cands pop r) (popWeights pop) covered selected
          = none →
      greedyLoop (coverageLists cands pop r) (popWeights pop) fuel covered selected
        = (selected, covered)) := by
  have hu := greedy_unfold cands pop k r hx hy px py
  have hu' := greedy_unfold cands pop (min k (cands.rows.length : Int)) r hx hy px py
  by_cases hempty : cands.rows.length = 0 ∨ pop.rows.length = 0 ∨ k ≤ 0
  · have hempty' : cands.rows.length = 0 ∨ pop.rows.length = 0 ∨
        min k (cands.rows.length : Int) ≤ 0 := by
      rcases hempty with h | h | h
      · exact Or.inl h
      · exact Or.inr (Or.inl h)
      · exact Or.inr (Or.inr (le_trans (min_le_left _ _) h))
    rw [if_pos hempty] at hu
    rw [if_pos hempty'] at hu'
    refine ⟨⟨_, hu⟩, ?_, hu.trans hu'.symm, ?_⟩
    · rw [hu]
      simp [selOf]
    · intro fuel covered selected h
      exact greedyLoop_none _ _ covered selected fuel h
  · push_neg at hempty
    obtain ⟨hnc, hnp, hk⟩ := hempty
    have hkpos : 0 < k := hk
    have hcond : ¬(cands.rows.length = 0 ∨ pop.rows.length = 0 ∨ k ≤ 0) := by
      push_neg
      exact ⟨hnc, hnp, hk⟩
    have hcond' : ¬(cands.rows.length = 0 ∨ pop.rows.length = 0 ∨
        min k (cands.rows.length : Int) ≤ 0) := by
      push_neg
      refine ⟨hnc, hnp, ?_⟩
      have h1 : (0:Int) < (cands.rows.length : Int) := by
        exact_mod_cast Nat.pos_of_ne_zero hnc
      exact lt_min hkpos h1
    have hfuel : (min k (cands.rows.length : Int)).toNat = min k.toNat cands.rows.length := by
      omega
    have hfuel2 : min (min k.toNat cands.rows.length) cands.rows.length
        = min k.toNat cands.rows.length := by
      omega
    rw [if_neg hcond] at hu
    rw [if_neg hcond', hfuel, hfuel2] at hu'
    refine ⟨⟨_, hu⟩, ?_, hu.trans hu'.symm, ?_⟩
    · rw [hu]
      simp only [selOf, List.length_map]
      have := greedyLoop_sel_length (coverageLists cands pop r) (popWeights pop)
        (min k.toNat cands.rows.length) (List.replicate pop.rows.length false) []
      simpa using this
    · intro fuel covered selected h
      exact greedyLoop_none _ _ covered selected fuel h

/-- Witness for C6 on the concrete scenario with an over-large k. -/
theorem greedy_never_raises_and_clamps_witness :
    (∃ v, greedy_max_k_cover_fast scenCands scenPop 5 2 = .ok v) ∧
    (selOf (greedy_max_k_cover_fast scenCands scenPop 5 2)).length
      ≤ min (Int.toNat 5) scenCands.rows.length ∧
    greedy_max_k_cover_fast scenCands scenPop 5 2
      = greedy_max_k_cover_fast scenCands scenPop (min 5 (scenCands.rows.length : Int)) 2 ∧
    (∀ (fuel : Nat) (covered : List Bool) (selected : List Nat),
      bestCandidate (coverageLists scenCands scenPop 2) (popWeights scenPop)
          covered selected = none →
      greedyLoop (coverageLists scenCands scenPop 2) (popWeights scenPop)
          fuel covered selected = (selected, covered)) :=
  greedy_never_raises_and_clamps scenCands scenPop 5 2 rfl rfl rfl rfl

/-- Helper for C7/C9: the row named in the first missing-column error. -/
theorem greedy_error_x (cands : CandTable) (pop : PopTable) (k : Int) (r : ℚ)
    (h : cands.hasX = false ∨ pop.hasX = false) :
    greedy_max_k_cover_fast cands pop k r
      = .error "Both candidates and population must contain column x" := by
  rw [greedy_max_k_cover_fast, if_pos h]

theorem greedy_error_y (cands : CandTable) (pop : PopTable) (k : Int) (r : ℚ)
    (hx : cands.hasX = true) (px : pop.hasX = true)
    (h : cands.hasY = false ∨ pop.hasY = false) :
    greedy_max_k_cover_fast cands pop k r
      = .error "Both candidates and population must contain column y" := by
  rw [greedy_max_k_cover_fast, hx, px]
  simp only [Bool.true_eq_false, or_self, if_false]
  rw [if_pos h]

theorem greedy_total_nonneg (cands : CandTable) (pop : PopTable) (k : Int) (r : ℚ)
    (hx : cands.hasX = true) (hy : cands.hasY = true)
    (px : pop.hasX = true) (py : pop.hasY = true) :
    0 ≤ totalOf (greedy_max_k_cover_fast cands pop k r) := by
  rw [greedy_unfold cands pop k r hx hy px py]
  by_cases hempty : cands.rows.length = 0 ∨ pop.rows.length = 0 ∨ k ≤ 0
  · rw [if_pos hempty]
    simp [totalOf]
  · rw [if_neg hempty]
    simp only [totalOf]
    have hok : covOk (coverageLists cands pop r)
        (List.replicate pop.rows.length false).length := by
      rw [List.length_replicate]
      exact coverageLists_covOk cands pop r
    have := greedyLoop_weight_mono (coverageLists cands pop r) (popWeights pop)
      (min k.toNat cands.rows.length) (List.replicate pop.rows.length false) [] hok
    rwa [coveredWeight_replicate] at this

/-- Claim C7: for a fixed input table pair and radius, the total covered
weight returned by the greedy solve is non-decreasing in `k`. -/
theorem greedy_total_monotone (cands : CandTable) (pop : PopTable)
    (k1 k2 : Int) (r : ℚ) (hk : k1 ≤ k2) :
    totalOf (greedy_max_k_cover_fast cands pop k1 r)
      ≤ totalOf (greedy_max_k_cover_fast cands pop k2 r) := by
  by_cases h1 : cands.hasX = false ∨ pop.hasX = false
  · rw [greedy_error_x cands pop k1 r h1, greedy_error_x cands pop k2 r h1]
  · push_neg at h1
    have hx : cands.hasX = true := by simpa using h1.1
    have hpx : pop.hasX = true := by simpa using h1.2
    by_cases h2 : cands.hasY = false ∨ pop.hasY = false
    · rw [greedy_error_y cands pop k1 r hx hpx h2, greedy_error_y cands pop k2 r hx hpx h2]
    · push_neg at h2
      have hy : cands.hasY = true := by simpa using h2.1
      have hpy : pop.hasY = true := by simpa using h2.2
      by_cases hc1 : cands.rows.length = 0 ∨ pop.rows.length = 0 ∨ k1 ≤ 0
      · have e1 : greedy_max_k_cover_fast cands pop k1 r
            = .ok ⟨[], 0, List.replicate pop.rows.length false⟩ := by
          rw [greedy_unfold cands pop k1 r hx hy hpx hpy, if_pos hc1]
        rw [e1]
        simpa [totalOf] using greedy_total_nonneg cands pop k2 r hx hy hpx hpy
      · push_neg at hc1
        obtain ⟨hnc, hnp, hk1⟩ := hc1
        have hc2 : ¬(cands.rows.length = 0 ∨ pop.rows.length = 0 ∨ k2 ≤ 0) := by
          push_neg
          exact ⟨hnc, hnp, by omega⟩
        have e1 := (greedy_unfold cands pop k1 r hx hy hpx hpy).trans
          (if_neg (by push_neg; exact ⟨hnc, hnp, hk1⟩))
        have e2 := (greedy_unfold cands pop k2 r hx hy hpx hpy).trans (if_neg hc2)
        rw [e1, e2]
        simp only [totalOf]
        have hle : min k1.toNat cands.rows.length ≤ min k2.toNat cands.rows.length := by
          omega
        obtain ⟨d, hd⟩ : ∃ d, min k2.toNat cands.rows.length
            = min k1.toNat cands.rows.length + d := ⟨_, (Nat.add_sub_cancel' hle).symm⟩
        rw [hd, greedyLoop_add]
        apply greedyLoop_weight_mono
        rw [greedyLoop_mask_length, List.length_replicate]
        exact coverageLists_covOk cands pop r

/-- Witness for C7: k = 1 versus k = 2 on the concrete scenario. -/
theorem greedy_total_monotone_witness :
    totalOf (greedy_max_k_cover_fast scenCands scenPop 1 2)
      ≤ totalOf (greedy_max_k_cover_fast scenCands scenPop 2 2) :=
  greedy_total_monotone scenCands scenPop 1 2 2 (by omega)

/-- Claim C9: the returned total equals the covered weight of the returned
mask, and with non-negative demand weights it lies between `0` and the sum
of all demand weights. -/
theorem greedy_total_bounds (cands : CandTable) (pop : PopTable) (k : Int)
    (r : ℚ) (hx : cands.hasX = true) (hy : cands.hasY = true)
    (px : pop.hasX = true) (py : pop.hasY = true)
    (hw : ∀ q ∈ popWeights pop, 0 ≤ q) :
    totalOf (greedy_max_k_cover_fast cands pop k r)
      = coveredWeight (popWeights pop) (maskOf (greedy_max_k_cover_fast cands pop k r)) ∧
    0 ≤ totalOf (greedy_max_k_cover_fast cands pop k r) ∧
    totalOf (greedy_max_k_cover_fast cands pop k r) ≤ (popWeights pop).sum := by
  rw [greedy_unfold cands pop k r hx hy px py]
  by_cases hempty : cands.rows.length = 0 ∨ pop.rows.length = 0 ∨ k ≤ 0
  · rw [if_pos hempty]
    refine ⟨?_, le_rfl, ?_⟩
    · simp [totalOf, maskOf, coveredWeight_replicate]
    · simp only [totalOf]
      exact List.sum_nonneg hw
  · rw [if_neg hempty]
    simp only [totalOf, maskOf]
    obtain ⟨h1, h2⟩ := coveredWeight_nonneg_le_sum (popWeights pop)
      ((greedyLoop (coverageLists cands pop r) (popWeights pop)
        (min k.toNat cands.rows.length)
        (List.replicate pop.rows.length false) []).2) hw
    exact ⟨trivial, h1, h2⟩

/-- Witness for C9 on the concrete scenario. -/
theorem greedy_total_bounds_witness :
    totalOf (greedy_max_k_cover_fast scenCands scenPop 1 2)
      = coveredWeight (popWeights scenPop)
          (maskOf (greedy_max_k_cover_fast scenCands scenPop 1 2)) ∧
    0 ≤ totalOf (greedy_max_k_cover_fast scenCands scenPop 1 2) ∧
    totalOf (greedy_max_k_cover_fast scenCands scenPop 1 2)
      ≤ (popWeights scenPop).sum :=
  greedy_total_bounds scenCands scenPop 1 2 rfl rfl rfl rfl
    (by norm_num [popWeights, scenPop])

/-- Claim C2 counterexample: an empty candidates table (nonempty demand,
k = 1 > 0, radius = 2 > 0) yields a normal empty result, not an error. -/
theorem empty_candidates_returns_ok :
    greedy_max_k_cover_fast ⟨true, true, []⟩
      ⟨true, true, true, [⟨0, some 0, some 0, some 1⟩]⟩ 1 2
      = .ok ⟨[], 0, [false]⟩ := by
  norm_num [greedy_max_k_cover_fast] <;> decide

/-- Claim C2 amended: empty candidates, empty demand, or `k ≤ 0` produce the
ordinary empty `ok` result (no selection, total 0, all-false mask) rather
than an error, and the radius is never validated: a negative radius merely
produces the same empty result (radius 0 is allowed and still covers
coincident points). -/
theorem empty_or_nonpos_returns_empty (cands : CandTable) (pop : PopTable)
    (k : Int) (r : ℚ) (hx : cands.hasX = true) (hy : cands.hasY = true)
    (px : pop.hasX = true) (py : pop.hasY = true) :
    ((cands.rows.length = 0 ∨ pop.rows.length = 0 ∨ k ≤ 0) →
      greedy_max_k_cover_fast cands pop k r
        = .ok ⟨[], 0, List.replicate pop.rows.length false⟩) ∧
    (r < 0 →
      greedy_max_k_cover_fast cands pop k r
        = .ok ⟨[], 0, List.replicate pop.rows.length false⟩) := by
  constructor
  · intro h
    rw [greedy_unfold cands pop k r hx hy px py, if_pos h]
  · intro hr
    rw [greedy_unfold cands pop k r hx hy px py]
    by_cases hempty : cands.rows.length = 0 ∨ pop.rows.length = 0 ∨ k ≤ 0
    · rw [if_pos hempty]
    · rw [if_neg hempty]
      have hbc : bestCandidate (coverageLists cands pop r) (popWeights pop)
          (List.replicate pop.rows.length false) [] = none := by
        apply scanGo_none_of_no_gain
        intro l hl
        rw [coverageLists] at hl
        obtain ⟨pt, _, rfl⟩ := List.mem_map.mp hl
        rw [coverageList_of_neg_radius _ _ r hr]
        exact le_of_eq (gainOf_nil _ _)
      rw [greedyLoop_none _ _ _ _ _ hbc]
      simp [coveredWeight_replicate]

/-- Witness for the amended C2: empty tables, k = 0, radius (-1). -/
theorem empty_or_nonpos_returns_empty_witness :
    ((CandTable.mk true true []).rows.length = 0
        ∨ (PopTable.mk true true true []).rows.length = 0 ∨ (0:Int) ≤ 0 →
      greedy_max_k_cover_fast ⟨true, true, []⟩ ⟨true, true, true, []⟩ 0 (-1)
        = .ok ⟨[], 0, List.replicate (PopTable.mk true true true []).rows.length false⟩) ∧
    ((-1:ℚ) < 0 →
      greedy_max_k_cover_fast ⟨true, true, []⟩ ⟨true, true, true, []⟩ 0 (-1)
        = .ok ⟨[], 0, List.replicate (PopTable.mk true true true []).rows.length false⟩) :=
  empty_or_nonpos_returns_empty ⟨true, true, []⟩ ⟨true, true, true, []⟩ 0 (-1)
    rfl rfl rfl rfl

/-- Claim C4 counterexample: with the `pop` column absent, a covered demand
point contributes weight 1.0 (the claimed default is 0.0, which would give
total 0 and an empty selection). -/
theorem missing_pop_column_weight_one :
    greedy_max_k_cover_fast ⟨true, true, [⟨0, some 0, some 0⟩]⟩
      ⟨true, true, false, [⟨0, some 0, some 0, none⟩]⟩ 1 1
      = .ok ⟨[0], 1, [true]⟩ := by
  norm_num [greedy_max_k_cover_fast, coverageLists, candCoords, popCoords,
    coverageList, inBall, popWeights, greedyLoop, bestCandidate, scanGo,
    gainOf, markCovered, coveredWeight, defaultCandRow, List.range_succ] <;> decide

/-- Claim C4 amended: the demand weight column is named `pop` only (no
`weight` synonym is consulted); when the column is absent every weight
defaults to 1.0, and a present but unparseable entry is taken as 0.0. -/
theorem pop_weight_semantics (cands : CandTable) (k : Int) (r : ℚ)
    (hx hy : Bool) (rows : List PopRow) :
    greedy_max_k_cover_fast cands ⟨hx, hy, false, rows⟩ k r
      = greedy_max_k_cover_fast cands
          ⟨hx, hy, true, rows.map (fun p => ⟨p.id, p.x, p.y, some 1⟩)⟩ k r ∧
    greedy_max_k_cover_fast cands ⟨hx, hy, true, rows⟩ k r
      = greedy_max_k_cover_fast cands
          ⟨hx, hy, true, rows.map (fun p => ⟨p.id, p.x, p.y, some (p.pop.getD 0)⟩)⟩ k r := by
  constructor <;>
    simp [greedy_max_k_cover_fast, coverageLists, popWeights, popCoords,
      List.map_map, Function.comp_def]

/-- Claim C8 counterexample: a candidate whose `x` cell does not parse is
coerced, not rejected — the solve returns an ordinary `ok` result. -/
theorem unparseable_coordinate_returns_ok :
    greedy_max_k_cover_fast ⟨true, true, [⟨0, none, some 0⟩]⟩
      ⟨true, true, true, [⟨0, some 0, some 0, some 5⟩]⟩ 1 1
      = .ok ⟨[], 0, [false]⟩ := by
  norm_num [greedy_max_k_cover_fast, coverageLists, candCoords, popCoords,
    coverageList, inBall, popWeights, greedyLoop, bestCandidate, scanGo,
    gainOf, markCovered, coveredWeight, defaultCandRow, List.range_succ] <;> decide

/-- Claim C8 amended: only a missing `x` or `y` column fails, with the error
message naming that column (`x` checked first); coordinate values that do
not parse are coerced to NaN and the solve still returns an `ok` result
whenever all four coordinate columns are present. -/
theorem validation_only_checks_columns (cands : CandTable) (pop : PopTable)
    (k : Int) (r : ℚ) :
    ((cands.hasX = false ∨ pop.hasX = false) →
      greedy_max_k_cover_fast cands pop k r
        = .error "Both candidates and population must contain column x") ∧
    (cands.hasX = true → pop.hasX = true →
      (cands.hasY = false ∨ pop.hasY = false) →
      greedy_max_k_cover_fast cands pop k r
        = .error "Both candidates and population must contain column y") ∧
    (cands.hasX = true → cands.hasY = true → pop.hasX = true → pop.hasY = true →
      ∃ v, greedy_max_k_cover_fast cands pop k r = .ok v) := by
  refine ⟨fun h => greedy_error_x cands pop k r h,
    fun hcx hpx h => greedy_error_y cands pop k r hcx hpx h, ?_⟩
  intro hx hy px py
  rw [greedy_unfold cands pop k r hx hy px py]
  by_cases hempty : cands.rows.length = 0 ∨ pop.rows.length = 0 ∨ k ≤ 0
  · rw [if_pos hempty]
    exact ⟨_, rfl⟩
  · rw [if_neg hempty]
    exact ⟨_, rfl⟩

/-- Witness for the amended C8: a table pair with a missing x column. -/
theorem validation_only_checks_columns_witness :
    (((CandTable.mk false true []).hasX = false
        ∨ (PopTable.mk true true true []).hasX = false) →
      greedy_max_k_cover_fast ⟨false, true, []⟩ ⟨true, true, true, []⟩ 1 1
        = .error "Both candidates and population must contain column x") ∧
    ((CandTable.mk false true []).hasX = true
        → (PopTable.mk true true true []).hasX = true →
      ((CandTable.mk false true []).hasY = false
        ∨ (PopTable.mk true true true []).hasY = false) →
      greedy_max_k_cover_fast ⟨false, true, []⟩ ⟨true, true, true, []⟩ 1 1
        = .error "Both candidates and population must contain column y") ∧
    ((CandTable.mk false true []).hasX = true
        → (CandTable.mk false true []).hasY = true
        → (PopTable.mk true true true []).hasX = true
        → (PopTable.mk true true true []).hasY = true →
      ∃ v, greedy_max_k_cover_fast ⟨false, true, []⟩ ⟨true, true, true, []⟩ 1 1
        = .ok v) :=
  validation_only_checks_columns ⟨false, true, []⟩ ⟨true, true, true, []⟩ 1 1
